import Mathlib

set_option maxRecDepth 100000

/-!
A shallow embedding of the ola-chain core: the digest wrapper (src/hash.rs),
blocks and proof-of-work mining (src/block.rs), the fee-indexed transaction
pool (src/transaction_pool.rs), the chain and its persistence (src/chain.rs,
src/store.rs) and the block builder (src/block_builder.rs).

Modelling conventions:
- Rust strings are lists of UTF-8 byte values (`List Nat`); a digest's
  64-character hexadecimal string is a `List (Fin 16)` of its hex digits.
- Machine integers are `Nat`, with an explicit `% 2 ^ 64` at the one place
  where u64 wrap-around matters (the nonce increment inside mining).
- Wall-clock reads (`Utc::now()`) become explicit `now : Nat` parameters
  (seconds, matching the `timestamp()` values the code hashes and compares).
- The unbounded `loop` in `mine_block` becomes a fuel-indexed function
  `mineBlock`; `none` means the search did not finish within the given fuel,
  and divergence of the source loop is `∀ fuel, mineBlock … = none`.
-/

/-- `u64::to_le_bytes` / `u32::to_le_bytes` / `i64::to_le_bytes` on the
non-negative values the code produces: `leBytes k v` is the `k`
least-significant bytes of `v`, least significant first. -/
def leBytes : Nat → Nat → List Nat
  | 0, _ => []
  | k + 1, v => (v % 256) :: leBytes k (v / 256)

/-- Concatenation of `f` over a list (the byte-accumulation loops of
`calculate_merkle_root` and `compute_hash`). -/
def concatMapL {α β : Type} (f : α → List β) : List α → List β
  | [] => []
  | a :: l => f a ++ concatMapL f l

/-- A 32-byte digest, held as its 64-character lowercase hexadecimal form
(struct `Hash { value: String }` in src/hash.rs); each list entry is one hex
character. -/
structure Hash where
  value : List (Fin 16)
deriving DecidableEq

/-- The ASCII byte of one lowercase hex character (what
`hash.value.as_bytes()` yields per character of the hex string). -/
def hexCharByte (c : Fin 16) : Nat :=
  if c.val < 10 then 48 + c.val else 87 + c.val

/-- `hash.value.as_bytes()`: the digest's hex string as UTF-8 bytes. -/
def hashBytes (h : Hash) : List Nat := h.value.map hexCharByte

/-- `Hash::genesis()`: the reserved all-zero 64-character sentinel. -/
def Hash.genesis : Hash := ⟨List.replicate 64 0⟩

/-- The type of the digest primitive `Hash::new` (bytes in, digest out). The
theorems below are stated for an arbitrary such function. -/
def HashFn : Type := List Nat → Hash

def hexOfNat (n : Nat) : Fin 16 := ⟨n % 16, Nat.mod_lt n (by decide)⟩

/-- The 64 hex digits of the real SHA-256 digest of the empty input,
e3b0c44298fc1c149afbf4c8996fb92427ae41e4649b934ca495991b7852b855. -/
def sha256emptyHex : List (Fin 16) :=
  [14, 3, 11, 0, 12, 4, 4, 2, 9, 8, 15, 12, 1, 12, 1, 4,
   9, 10, 15, 11, 15, 4, 12, 8, 9, 9, 6, 15, 11, 9, 2, 4,
   2, 7, 10, 14, 4, 1, 14, 4, 6, 4, 9, 11, 9, 3, 4, 12,
   10, 4, 9, 5, 9, 9, 1, 11, 7, 8, 5, 2, 11, 8, 5, 5]

/-- Modelled from the spec: `Hash::new` wraps SHA-256 from the external
`sha2` crate, which is not part of this repository; the spec fixes only that
the digest is a deterministic one-way function with a 64-hex-character
output and that the all-zero string is a reserved sentinel, never a digest.
This executable stand-in returns the real SHA-256 digest of the empty input
and an arbitrary deterministic 64-character value elsewhere; it instantiates
the `HashFn`-parametric theorems at concrete inputs. -/
def shaModel : HashFn := fun bytes =>
  if bytes = [] then ⟨sha256emptyHex⟩
  else
    let s := bytes.foldl (fun a b => a * 257 + b + 1) 1
    ⟨(List.range 64).map fun i => hexOfNat (s / 16 ^ i)⟩

/-- A degenerate digest function (constant all-zero output) used only to
instantiate `HashFn`-parametric theorems where a mining search must succeed
at once. -/
def Hzero : HashFn := fun _ => ⟨List.replicate 64 0⟩

/-- `Address { value: String, raw_bytes: Option<Vec<u8>> }` (src/address.rs);
`raw_bytes` carries `#[serde(skip)]`. -/
structure Address where
  value : List Nat
  raw_bytes : Option (List Nat)
deriving DecidableEq

/-- The custom `PartialEq for Address`: byte equality when both sides carry
raw bytes, string equality otherwise. -/
def addressEq (a b : Address) : Bool :=
  match a.raw_bytes, b.raw_bytes with
  | some x, some y => x == y
  | _, _ => a.value == b.value

/-- `Transaction` (src/transaction.rs). The Rust fields `from` and `to` are
named `from_` and `to_` here because `from` is a Lean keyword. -/
structure Transaction where
  id : List Nat
  from_ : Address
  to_ : Address
  amount : Nat
  fee : Nat
  timestamp : Nat
  signature : Option (List Nat)
deriving DecidableEq

/-- `Transaction::is_valid`: `amount > 0 && from != to && signature.is_some()`. -/
def Transaction.is_valid (t : Transaction) : Bool :=
  decide (0 < t.amount) && !(addressEq t.from_ t.to_) && t.signature.isSome

/-- One byte of a JSON string body as serde_json emits it: quote and
backslash are escaped, the control characters 0x08/0x09/0x0a/0x0c/0x0d get
their two-character escapes, other control characters get `\u00XX`, and
every other byte passes through. -/
def jsonEscByte (b : Nat) : List Nat :=
  if b = 34 then [92, 34]
  else if b = 92 then [92, 92]
  else if b = 8 then [92, 98]
  else if b = 9 then [92, 116]
  else if b = 10 then [92, 110]
  else if b = 12 then [92, 102]
  else if b = 13 then [92, 114]
  else if b < 32 then [92, 117, 48, 48, hexCharByte (hexOfNat (b / 16)), hexCharByte (hexOfNat b)]
  else [b]

/-- A JSON string literal: quote, escaped body, quote. -/
def jsonString (s : List Nat) : List Nat :=
  [34] ++ concatMapL jsonEscByte s ++ [34]

/-- Decimal digit bytes of `n`, most significant first, by fuel recursion
(`n` has at most `fuel` digits; 30 digits cover every u64). -/
def decDigitsAux : Nat → Nat → List Nat
  | 0, _ => []
  | fuel + 1, n => if n = 0 then [] else decDigitsAux fuel (n / 10) ++ [48 + n % 10]

/-- A JSON number literal for the u64 values the structs hold. -/
def jsonNat (n : Nat) : List Nat :=
  if n = 0 then [48] else decDigitsAux 30 n

/-- The bytes of the ASCII string `value`. -/
def keyValue : List Nat := [118, 97, 108, 117, 101]

/-- The bytes of the ASCII string `id`. -/
def keyId : List Nat := [105, 100]

/-- The bytes of the ASCII string `from`. -/
def keyFrom : List Nat := [102, 114, 111, 109]

/-- The bytes of the ASCII string `to`. -/
def keyTo : List Nat := [116, 111]

/-- The bytes of the ASCII string `amount`. -/
def keyAmount : List Nat := [97, 109, 111, 117, 110, 116]

/-- The bytes of the ASCII string `fee`. -/
def keyFee : List Nat := [102, 101, 101]

/-- The bytes of the ASCII string `timestamp`. -/
def keyTimestamp : List Nat := [116, 105, 109, 101, 115, 116, 97, 109, 112]

/-- The bytes of the ASCII string `signature`. -/
def keySignature : List Nat := [115, 105, 103, 110, 97, 116, 117, 114, 101]

/-- The bytes of the ASCII string `null`. -/
def litNull : List Nat := [110, 117, 108, 108]

/-- serde_json output for an `Address`: only `value`, since `raw_bytes` is
`#[serde(skip)]`. Byte 123 is an opening brace, 125 a closing brace, 58 a
colon, 44 a comma. -/
def jsonAddress (a : Address) : List Nat :=
  [123] ++ jsonString keyValue ++ [58] ++ jsonString a.value ++ [125]

/-- serde_json output for a `Transaction` (compact form, declaration field
order), as consumed by `compute_hash` (`to_vec`) and
`estimate_transaction_size` (`to_string(..).len()`). -/
def jsonTx (t : Transaction) : List Nat :=
  [123] ++ jsonString keyId ++ [58] ++ jsonString t.id ++ [44]
    ++ jsonString keyFrom ++ [58] ++ jsonAddress t.from_ ++ [44]
    ++ jsonString keyTo ++ [58] ++ jsonAddress t.to_ ++ [44]
    ++ jsonString keyAmount ++ [58] ++ jsonNat t.amount ++ [44]
    ++ jsonString keyFee ++ [58] ++ jsonNat t.fee ++ [44]
    ++ jsonString keyTimestamp ++ [58] ++ jsonNat t.timestamp ++ [44]
    ++ jsonString keySignature ++ [58]
    ++ (match t.signature with
        | none => litNull
        | some s => jsonString s)
    ++ [125]

/-- `TransactionPool` (src/transaction_pool.rs). The `VecDeque` of pending
transactions is a list in insertion order; the `BTreeMap<u64, Vec<Transaction>>`
fee index is an association list in strictly ascending key order. -/
structure TransactionPool where
  pending_transactions : List Transaction
  by_fee : List (Nat × List Transaction)
  max_transactions_per_block : Nat
  max_block_size : Nat
deriving DecidableEq

/-- `TransactionPool::new`. -/
def TransactionPool.new (max_transactions_per_block max_block_size : Nat) : TransactionPool :=
  ⟨[], [], max_transactions_per_block, max_block_size⟩

/-- `TransactionPool::pending_count`. -/
def TransactionPool.pending_count (p : TransactionPool) : Nat :=
  p.pending_transactions.length

/-- `self.by_fee.entry(fee).or_insert_with(Vec::new).push(tx)` on the
ascending association list: append to the bucket with this exact key, or
create the bucket at its sorted position. -/
def bucketInsert (fee : Nat) (tx : Transaction) : List (Nat × List Transaction) → List (Nat × List Transaction)
  | [] => [(fee, [tx])]
  | (k, txs) :: rest =>
    if fee < k then (fee, [tx]) :: (k, txs) :: rest
    else if fee = k then (k, txs ++ [tx]) :: rest
    else (k, txs) :: bucketInsert fee tx rest

/-- `TransactionPool::add_transaction`: reject an invalid transaction, then a
full pool, otherwise push to the pending list and to the fee bucket. -/
def addTransaction (p : TransactionPool) (t : Transaction) : Except String TransactionPool :=
  if !t.is_valid then .error "Invalid transaction"
  else if p.max_transactions_per_block ≤ p.pending_transactions.length then
    .error "Transaction pool is full"
  else .ok { p with
    pending_transactions := p.pending_transactions ++ [t],
    by_fee := bucketInsert t.fee t p.by_fee }

/-- `TransactionPool::estimate_transaction_size`:
`serde_json::to_string(tx).unwrap_or_default().len()`. -/
def estimateTransactionSize (t : Transaction) : Nat := (jsonTx t).length

/-- `TransactionPool::remove_transaction`: drop every pending transaction and
every bucket entry with this id, then prune empty buckets. -/
def removeTransaction (p : TransactionPool) (transaction_id : List Nat) : TransactionPool :=
  { p with
    pending_transactions := p.pending_transactions.filter fun tx => !(tx.id == transaction_id),
    by_fee := ((p.by_fee.map fun e => (e.1, e.2.filter fun tx => !(tx.id == transaction_id))).filter
      fun e => !e.2.isEmpty) }

/-- The inner loop of `pull_transactions_for_block` over one fee bucket:
stop (`break`) when the selection already holds `max_transactions_per_block`
items or the next transaction would push the running size past
`max_block_size`; otherwise select the transaction, and stop after selecting
once the count cap is reached. -/
def selectBucket (maxN maxS : Nat) : List Transaction → List Transaction → Nat → List Transaction × Nat
  | [], sel, total => (sel, total)
  | tx :: rest, sel, total =>
    if maxN ≤ sel.length ∨ maxS < total + estimateTransactionSize tx then (sel, total)
    else if maxN ≤ (sel ++ [tx]).length then (sel ++ [tx], total + estimateTransactionSize tx)
    else selectBucket maxN maxS rest (sel ++ [tx]) (total + estimateTransactionSize tx)

/-- The outer loop of `pull_transactions_for_block` over
`self.by_fee.iter().rev()` (buckets in descending fee order): after each
bucket, stop (`break`) only when the count cap is reached. -/
def selectLoop (maxN maxS : Nat) : List (Nat × List Transaction) → List Transaction → Nat → List Transaction × Nat
  | [], sel, total => (sel, total)
  | (_, txs) :: rest, sel, total =>
    let r := selectBucket maxN maxS txs sel total
    if maxN ≤ r.1.length then r else selectLoop maxN maxS rest r.1 r.2

/-- `TransactionPool::pull_transactions_for_block`: select greedily over the
buckets in descending fee order, then remove each selected id; returns the
selection and the resulting pool. -/
def pullTransactionsForBlock (p : TransactionPool) : List Transaction × TransactionPool :=
  let sel := (selectLoop p.max_transactions_per_block p.max_block_size p.by_fee.reverse [] 0).1
  (sel, sel.foldl (fun q tx => removeTransaction q tx.id) p)

/-- `Block` (src/block.rs). `timestamp` is the `DateTime<Utc>` reduced to the
seconds value `timestamp.timestamp()`, the only form the code feeds into
hashing. -/
structure Block where
  index : Nat
  timestamp : Nat
  transactions : List Transaction
  previous_block_hash : Option Hash
  current_block_hash : Option Hash
  merkle_root : Hash
  data : List Nat
  nonce : Nat
  difficulty : Nat
deriving DecidableEq

/-- `Block::calculate_merkle_root`: the digest of the concatenated
transaction id strings (`Hash::new(&[])` for an empty list). -/
def calculateMerkleRoot (H : HashFn) (transactions : List Transaction) : Hash :=
  if transactions.isEmpty then H []
  else H (concatMapL (fun tx => tx.id) transactions)

/-- `Block::compute_hash`: digest of index, timestamp seconds, nonce and
difficulty in little-endian bytes, then the previous digest's hex bytes if
present, the merkle root's hex bytes, each transaction's serde_json bytes,
and the extra data bytes. -/
def computeHash (H : HashFn) (b : Block) : Hash :=
  H (leBytes 8 b.index ++ leBytes 8 b.timestamp ++ leBytes 8 b.nonce ++ leBytes 4 b.difficulty
    ++ (match b.previous_block_hash with
        | some prev_hash => hashBytes prev_hash
        | none => [])
    ++ hashBytes b.merkle_root
    ++ concatMapL jsonTx b.transactions
    ++ b.data)

/-- `Block::genesis`: index 0, no transactions, the all-zero sentinel as
merkle root, no previous digest, nonce 0, difficulty 4, and the current
digest computed at once. -/
def Block.genesis (H : HashFn) (now : Nat) : Block :=
  let g : Block :=
    { index := 0, timestamp := now, transactions := [],
      previous_block_hash := none, current_block_hash := none,
      merkle_root := Hash.genesis, data := [], nonce := 0, difficulty := 4 }
  { g with current_block_hash := some (computeHash H g) }

/-- `Block::new`: the given index and transactions, the given previous
digest, computed merkle root, nonce 0, difficulty 4, and a provisional
current digest computed at once. -/
def Block.new (H : HashFn) (now index : Nat) (transactions : List Transaction)
    (previous_block_hash : Hash) : Block :=
  let b : Block :=
    { index := index, timestamp := now, transactions := transactions,
      previous_block_hash := some previous_block_hash, current_block_hash := none,
      merkle_root := calculateMerkleRoot H transactions, data := [], nonce := 0, difficulty := 4 }
  { b with current_block_hash := some (computeHash H b) }

/-- `Block::mine_block` with explicit fuel: recompute the digest, store it
and stop once its hex form starts with `target_difficulty` zero characters,
else increment the nonce (a u64, hence the wrap at `2 ^ 64`) and retry.
`none` means the loop did not finish within `fuel` iterations. -/
def mineBlock (H : HashFn) : Nat → Block → Nat → Option Block
  | 0, _, _ => none
  | fuel + 1, b, target_difficulty =>
    if (List.replicate target_difficulty (0 : Fin 16)).isPrefixOf (computeHash H b).value then
      some { b with current_block_hash := some (computeHash H b) }
    else
      mineBlock H fuel { b with nonce := (b.nonce + 1) % 2 ^ 64 } target_difficulty

/-- The source loop in `mine_block` runs forever on this input: no amount of
fuel makes the fuel-indexed model return. -/
def minesForever (H : HashFn) (b : Block) (target_difficulty : Nat) : Prop :=
  ∀ fuel, mineBlock H fuel b target_difficulty = none

/-- `Chain` (src/chain.rs): an i8 difficulty, the recorded genesis digest,
the creation time, and the block list. `blocks` carries `#[serde(skip)]`. -/
structure Chain where
  difficulty : Int
  genesis_block_hash : Hash
  initialized_at : Nat
  blocks : List Block
deriving DecidableEq

/-- The fields of `Chain` that `serde` actually writes to `blockchain.json`:
everything except `blocks`, which is `#[serde(skip)]`. -/
structure PersistedChain where
  difficulty : Int
  genesis_block_hash : Hash
  initialized_at : Nat
deriving DecidableEq

/-- `Chain::save_to_file` composed with `serde_json::to_string_pretty`: the
persisted record, keeping exactly the serialized fields. -/
def serializeChain (c : Chain) : PersistedChain :=
  ⟨c.difficulty, c.genesis_block_hash, c.initialized_at⟩

/-- `Chain::load_from_file` composed with `serde_json::from_str` on a record
that parses: the skipped `blocks` field comes back as its `Default`, the
empty vector. -/
def deserializeChain (p : PersistedChain) : Chain :=
  ⟨p.difficulty, p.genesis_block_hash, p.initialized_at, []⟩

/-- `Chain::create_new_chain`: difficulty 4, the genesis block's digest and a
block list holding only genesis (the write to disk is `serializeChain`). -/
def createNewChain (H : HashFn) (now : Nat) : Chain :=
  let genesis_block := Block.genesis H now
  { difficulty := 4,
    genesis_block_hash := genesis_block.current_block_hash.getD Hash.genesis,
    initialized_at := now,
    blocks := [genesis_block] }

/-- `StoreError` (src/store.rs). -/
inductive StoreError where
  | ioErr : StoreError
  | serializationErr : StoreError
  | validationErr : List Nat → StoreError
  | noBlockToCreate : StoreError
  | duplicateBlockErr : List Nat → StoreError
deriving DecidableEq

/-- `impl Store<Block> for Chain`: `save` pushes the block and returns its
current digest. The source unwraps `current_block_hash`; every block reaching
`save` was just mined, so the digest is present and the `getD` default is
never used on that path. -/
def Chain.save (c : Chain) (block : Block) : Chain × Except StoreError Hash :=
  ({ c with blocks := c.blocks ++ [block] },
   .ok (block.current_block_hash.getD Hash.genesis))

/-- `Chain::add_block`: delegate to `save`. -/
def Chain.add_block (c : Chain) (block : Block) : Chain × Except StoreError Hash :=
  c.save block

/-- `BlockBuilder` (src/block_builder.rs). -/
structure BlockBuilder where
  transaction_pool : TransactionPool
  current_block : Option Block
  blockchain : Chain
  block_time_limit : Nat
  min_transactions : Nat
  last_block_time : Nat
deriving DecidableEq

/-- `BlockBuilder::new`: a 1000-transaction, 1 MiB pool, a 600-second time
limit, a minimum of 1 pending transaction, and a last-block time of 0. -/
def BlockBuilder.new (chain : Chain) : BlockBuilder :=
  { transaction_pool := TransactionPool.new 1000 (1024 * 1024),
    current_block := none,
    blockchain := chain,
    block_time_limit := 600,
    min_transactions := 1,
    last_block_time := 0 }

/-- `BlockBuilder::add_transaction`: feed the pool; the pool (and hence the
builder) changes only on success. -/
def BlockBuilder.add_transaction (b : BlockBuilder) (t : Transaction) :
    BlockBuilder × Except String Unit :=
  match addTransaction b.transaction_pool t with
  | .ok p => ({ b with transaction_pool := p }, .ok ())
  | .error e => (b, .error e)

/-- `BlockBuilder::should_create_block`:
`now - last_block_time >= block_time_limit || pending_count >= min_transactions`.
The u64 subtraction is modelled by truncated `Nat` subtraction; the two agree
whenever `last_block_time ≤ now`, which holds on every reachable state
(`last_block_time` is 0 or an earlier `now`). -/
def shouldCreateBlock (b : BlockBuilder) (now : Nat) : Bool :=
  decide (b.block_time_limit ≤ now - b.last_block_time) ||
    decide (b.min_transactions ≤ b.transaction_pool.pending_count)

/-- `BlockBuilder::create_block`. The pull happens before the emptiness and
tip checks, so the pool mutation survives even when no block is produced;
the candidate block references the tip's digest and index + 1, and producing
one resets `last_block_time`. The source binds the pull result once; the
model repeats the pure call instead of naming it. -/
def createBlock (H : HashFn) (now : Nat) (b : BlockBuilder) : Option Block × BlockBuilder :=
  if shouldCreateBlock b now = false then (none, b)
  else if (pullTransactionsForBlock b.transaction_pool).1.isEmpty then
    (none, { b with transaction_pool := (pullTransactionsForBlock b.transaction_pool).2 })
  else
    match b.blockchain.blocks.getLast? with
    | none => (none, { b with transaction_pool := (pullTransactionsForBlock b.transaction_pool).2 })
    | some previous_block =>
      match previous_block.current_block_hash with
      | none => (none, { b with transaction_pool := (pullTransactionsForBlock b.transaction_pool).2 })
      | some previous_hash =>
        (some (Block.new H now (previous_block.index + 1)
            (pullTransactionsForBlock b.transaction_pool).1 previous_hash),
         { b with transaction_pool := (pullTransactionsForBlock b.transaction_pool).2,
                  last_block_time := now })

/-- `BlockBuilder::mine_and_add_block`: create a candidate, mine it at its
own difficulty, append it to the chain; `noBlockToCreate` when there is no
candidate. `none` means the mining loop did not finish within `fuel`. -/
def mineAndAddBlock (H : HashFn) (now fuel : Nat) (b : BlockBuilder) :
    Option (BlockBuilder × Except StoreError Hash) :=
  match createBlock H now b with
  | (none, b1) => some (b1, .error StoreError.noBlockToCreate)
  | (some block, b1) =>
    match mineBlock H fuel block block.difficulty with
    | none => none
    | some mined =>
      some ({ b1 with blockchain := (b1.blockchain.add_block mined).1 },
            (b1.blockchain.add_block mined).2)

/-- The builder states reachable from `load_or_create` (either a freshly
created chain or one parsed back from `blockchain.json`) by any interleaving
of `add_transaction` and terminating `mine_and_add_block` calls. -/
inductive ReachableBuilder (H : HashFn) : BlockBuilder → Prop where
  | created (now : Nat) : ReachableBuilder H (BlockBuilder.new (createNewChain H now))
  | loaded (p : PersistedChain) : ReachableBuilder H (BlockBuilder.new (deserializeChain p))
  | added (b : BlockBuilder) (t : Transaction) :
      ReachableBuilder H b → ReachableBuilder H (b.add_transaction t).1
  | mined (b b' : BlockBuilder) (now fuel : Nat) (r : Except StoreError Hash) :
      ReachableBuilder H b → mineAndAddBlock H now fuel b = some (b', r) →
      ReachableBuilder H b'

/-- The chain-linking invariant: the first block (when one exists) has no
previous digest, and each later block's previous digest equals its
predecessor's current digest. -/
def chainLinked (blocks : List Block) : Prop :=
  (∀ b0, blocks.head? = some b0 → b0.previous_block_hash = none) ∧
  List.Chain' (fun a b => b.previous_block_hash = a.current_block_hash) blocks

/-- The pool states reachable from `TransactionPool::new` by successful
`add_transaction` calls. -/
inductive PoolReachable : TransactionPool → Prop where
  | fresh (maxN maxS : Nat) : PoolReachable (TransactionPool.new maxN maxS)
  | added (p p' : TransactionPool) (t : Transaction) :
      PoolReachable p → addTransaction p t = .ok p' → PoolReachable p'

/-- The structural invariant the Rust `BTreeMap` maintains for `by_fee`:
strictly ascending keys, and every bucket holds transactions of exactly its
key's fee. -/
def PoolWF (p : TransactionPool) : Prop :=
  List.Pairwise (fun a b => a.1 < b.1) p.by_fee ∧
  ∀ e ∈ p.by_fee, ∀ tx ∈ e.2, tx.fee = e.1

/-- The cumulative estimated size of a list of transactions. -/
def sizeSum (l : List Transaction) : Nat :=
  (l.map estimateTransactionSize).sum

/-- `BTreeMap::get` on the association list: the bucket stored under this
exact fee, if any. -/
def bucketLookup : List (Nat × List Transaction) → Nat → Option (List Transaction)
  | [], _ => none
  | (k, txs) :: rest, f => if k = f then some txs else bucketLookup rest f


/-- A test address with string value `0xaa` (bytes of `0`, `x`, `a`, `a`). -/
def addrA : Address := ⟨[48, 120, 97, 97], none⟩

/-- A test address with string value `0xbb`. -/
def addrB : Address := ⟨[48, 120, 98, 98], none⟩

/-- A test address with string value `0xcc`. -/
def addrC : Address := ⟨[48, 120, 99, 99], none⟩

/-- A valid pending transaction with fee 5 (id `a`, signature `s`). -/
def tx5 : Transaction := ⟨[97], addrA, addrB, 1, 5, 0, some [115]⟩

/-- A valid pending transaction with fee 10 (id `b`). -/
def tx10 : Transaction := ⟨[98], addrB, addrC, 2, 10, 0, some [115]⟩

/-- A valid pending transaction with fee 1 (id `c`). -/
def tx1 : Transaction := ⟨[99], addrA, addrC, 3, 1, 0, some [115]⟩

/-- The pool state of the selection example: pending transactions with fees
{5, 10, 1}, a cap of 2 transactions per block and a 1024-byte size budget. -/
def examplePool : TransactionPool :=
  ⟨[tx5, tx10, tx1], [(1, [tx1]), (5, [tx5]), (10, [tx10])], 2, 1024⟩


/-- A transaction whose serde_json form is 125 bytes long (20-byte id,
fee 10): over the 110-byte budget of `overflowPool` on its own. -/
def txBig : Transaction := ⟨List.replicate 20 100, addrA, addrB, 1, 10, 0, some [115]⟩

/-- A transaction whose serde_json form is 105 bytes long (fee 5): within
the 110-byte budget of `overflowPool`. -/
def txSmall : Transaction := ⟨[101], addrB, addrC, 2, 5, 0, some [115]⟩

/-- A pool whose highest-fee candidate alone exceeds the 110-byte block-size
budget while a lower-fee candidate fits (count cap 10). -/
def overflowPool : TransactionPool :=
  ⟨[txBig, txSmall], [(5, [txSmall]), (10, [txBig])], 10, 110⟩


/-- A concrete block used to instantiate the mining theorems: under the
all-zero digest function the search succeeds on its first iteration. -/
def witnessBlock : Block := Block.genesis Hzero 0

/-- `witnessBlock` after one successful mining iteration. -/
def minedWitnessBlock : Block :=
  { witnessBlock with current_block_hash := some (computeHash Hzero witnessBlock) }

/-- A second concrete block (one transaction, a previous digest) for the
frame-property witness. -/
def frameBlock : Block := Block.new Hzero 7 1 [tx5] Hash.genesis

/-- `frameBlock` after one successful mining iteration. -/
def minedFrameBlock : Block :=
  { frameBlock with current_block_hash := some (computeHash Hzero frameBlock) }

/-- A tiny pool (capacity 2 transactions, 1-byte size budget) after one
successful `add_transaction`. -/
def tinyPool1 : TransactionPool := ⟨[tx5], [(5, [tx5])], 2, 1⟩

/-- The tiny pool after a second successful `add_transaction`: two pending
transactions whose cumulative estimated size is 210, far over the 1-byte
budget. -/
def tinyPool2 : TransactionPool := ⟨[tx5, tx10], [(5, [tx5]), (10, [tx10])], 2, 1⟩

/-- A builder over an empty (just-deserialized) chain, for the trigger
examples. -/
def emptyChainBuilder : BlockBuilder :=
  BlockBuilder.new (deserializeChain ⟨4, Hash.genesis, 0⟩)

/-- A valid transaction with fee 5 and id `x`, inserted into `fifoPool`
before `txB5`. -/
def txA5 : Transaction := ⟨[120], addrA, addrB, 4, 5, 0, some [115]⟩

/-- A valid transaction with fee 5 and id `y`, inserted into `fifoPool`
after `txA5`. -/
def txB5 : Transaction := ⟨[121], addrB, addrC, 6, 5, 0, some [115]⟩

/-- A pool whose single fee-5 bucket holds two transactions in insertion
order, to exercise FIFO order within one bucket (cap 10, 1024-byte
budget). -/
def fifoPool : TransactionPool :=
  ⟨[txA5, txB5], [(5, [txA5, txB5])], 10, 1024⟩

/-- `compute_hash` reads every field except `current_block_hash`, so setting
that field does not change the recomputed digest. -/
lemma computeHash_set_current (H : HashFn) (b : Block) (x : Option Hash) :
    computeHash H { b with current_block_hash := x } = computeHash H b := rfl

/-- Mining leaves every field except the nonce and the current digest as it
found them. -/
lemma mineBlock_frame (H : HashFn) (fuel : Nat) :
    ∀ (b : Block) (d : Nat) (b' : Block), mineBlock H fuel b d = some b' →
      b'.index = b.index ∧ b'.timestamp = b.timestamp ∧
      b'.transactions = b.transactions ∧
      b'.previous_block_hash = b.previous_block_hash ∧
      b'.merkle_root = b.merkle_root ∧ b'.data = b.data ∧
      b'.difficulty = b.difficulty := by
  induction fuel with
  | zero => intro b d b' h; simp [mineBlock] at h
  | succ n ih =>
    intro b d b' h
    simp only [mineBlock] at h
    split at h
    · cases h; simp
    · simpa using ih _ d b' h

/-- Partial correctness of mining: a block the search returns carries a
stored digest equal to the digest recomputed from its final fields, and that
digest's hex form starts with `d` zero characters. -/
lemma mineBlock_post (H : HashFn) (fuel : Nat) :
    ∀ (b : Block) (d : Nat) (b' : Block), mineBlock H fuel b d = some b' →
      b'.current_block_hash = some (computeHash H b') ∧
      (List.replicate d (0 : Fin 16)).isPrefixOf (computeHash H b').value = true := by
  induction fuel with
  | zero => intro b d b' h; simp [mineBlock] at h
  | succ n ih =>
    intro b d b' h
    simp only [mineBlock] at h
    split at h
    · cases h
      refine ⟨rfl, ?_⟩
      rw [computeHash_set_current]
      assumption
    · exact ih _ d b' h

/-- A Boolean prefix is no longer than the list it prefixes. -/
lemma isPrefixOf_length_le {α : Type} [BEq α] :
    ∀ (l1 l2 : List α), l1.isPrefixOf l2 = true → l1.length ≤ l2.length := by
  intro l1
  induction l1 with
  | nil => intro l2 _; simp
  | cons a as ih =>
    intro l2 h
    cases l2 with
    | nil => simp [List.isPrefixOf] at h
    | cons b bs =>
      simp only [List.isPrefixOf, Bool.and_eq_true] at h
      simpa using ih bs h.2

/-- Every digest the stand-in produces has the fixed 64-character hex form. -/
lemma shaModel_length (x : List Nat) : (shaModel x).value.length = 64 := by
  unfold shaModel
  split
  · decide
  · simp

/-- At difficulty 65 the target has 65 characters while every digest has 64,
so the search condition never holds and the loop never exits, whatever the
nonce: the model returns `none` for every fuel. -/
lemma mineBlock65_none (fuel : Nat) : ∀ b, mineBlock shaModel fuel b 65 = none := by
  induction fuel with
  | zero => intro b; simp [mineBlock]
  | succ n ih =>
    intro b
    simp only [mineBlock]
    rw [if_neg, ih]
    intro h
    have hle := isPrefixOf_length_le _ _ h
    simp only [computeHash] at hle
    rw [shaModel_length, List.length_replicate] at hle
    omega

lemma sizeSum_nil : sizeSum [] = 0 := rfl

lemma sizeSum_cons (t : Transaction) (l : List Transaction) :
    sizeSum (t :: l) = estimateTransactionSize t + sizeSum l := by
  simp [sizeSum]

/-- The inner bucket loop appends a prefix of the bucket to the selection,
adds exactly the selected sizes to the running total, and preserves both the
count cap and the size cap. -/
lemma selectBucket_spec (maxN maxS : Nat) :
    ∀ (txs sel : List Transaction) (total : Nat),
      ∃ t, selectBucket maxN maxS txs sel total = (sel ++ t, total + sizeSum t) ∧
        (∃ rest, txs = t ++ rest) ∧
        (sel.length ≤ maxN → (sel ++ t).length ≤ maxN) ∧
        (total ≤ maxS → total + sizeSum t ≤ maxS) := by
  intro txs
  induction txs with
  | nil =>
    intro sel total
    exact ⟨[], by simp [selectBucket, sizeSum_nil], ⟨[], rfl⟩, by simp, by simp [sizeSum_nil]⟩
  | cons tx rest ih =>
    intro sel total
    by_cases h1 : maxN ≤ sel.length ∨ maxS < total + estimateTransactionSize tx
    · refine ⟨[], ?_, ⟨tx :: rest, rfl⟩, by simp, by simp [sizeSum_nil]⟩
      simp only [selectBucket]
      rw [if_pos h1]
      simp [sizeSum_nil]
    · push_neg at h1
      obtain ⟨hn, hs⟩ := h1
      by_cases h2 : maxN ≤ (sel ++ [tx]).length
      · refine ⟨[tx], ?_, ⟨rest, rfl⟩, ?_, ?_⟩
        · simp only [selectBucket]
          rw [if_neg (not_or.mpr ⟨not_le.mpr hn, not_lt.mpr hs⟩), if_pos h2]
          simp [sizeSum_cons, sizeSum_nil]
        · intro _
          simp only [List.length_append, List.length_cons, List.length_nil] at h2 ⊢
          omega
        · intro _
          rw [sizeSum_cons, sizeSum_nil]
          omega
      · obtain ⟨t', heq, ⟨rest', hrest⟩, hcount, hsize⟩ :=
          ih (sel ++ [tx]) (total + estimateTransactionSize tx)
        refine ⟨tx :: t', ?_, ⟨rest', by rw [hrest]; rfl⟩, ?_, ?_⟩
        · simp only [selectBucket]
          rw [if_neg (not_or.mpr ⟨not_le.mpr hn, not_lt.mpr hs⟩), if_neg h2, heq]
          simp [List.append_assoc, sizeSum_cons, Nat.add_assoc]
        · intro hsel
          have hstep : (sel ++ [tx]).length ≤ maxN := by
            simp only [List.length_append, List.length_cons, List.length_nil]
            simp only [List.length_append, List.length_cons, List.length_nil] at h2
            omega
          have h3 := hcount hstep
          simp only [List.length_append, List.length_cons, List.length_nil] at h3 ⊢
          omega
        · intro htot
          have h4 := hsize hs
          rw [sizeSum_cons]
          omega

/-- The outer loop: the final selection extends the accumulator with
transactions drawn from the buckets, keeps the count at or below the count
cap, and keeps the running size at or below the size budget. -/
lemma selectLoop_spec (maxN maxS : Nat) :
    ∀ (bs : List (Nat × List Transaction)) (sel : List Transaction) (total : Nat),
      ∃ t, selectLoop maxN maxS bs sel total = (sel ++ t, total + sizeSum t) ∧
        (∀ x ∈ t, ∃ e ∈ bs, x ∈ e.2) ∧
        (sel.length ≤ maxN → (sel ++ t).length ≤ maxN) ∧
        (total ≤ maxS → total + sizeSum t ≤ maxS) := by
  intro bs
  induction bs with
  | nil =>
    intro sel total
    exact ⟨[], by simp [selectLoop, sizeSum_nil], by simp, by simp, by simp [sizeSum_nil]⟩
  | cons e rest ih =>
    obtain ⟨f, txs⟩ := e
    intro sel total
    obtain ⟨t1, h1, ⟨tail1, htail1⟩, hc1, hs1⟩ := selectBucket_spec maxN maxS txs sel total
    have ht1mem : ∀ x ∈ t1, x ∈ txs := by
      intro x hx
      rw [htail1]
      exact List.mem_append_left _ hx
    by_cases hstop : maxN ≤ (sel ++ t1).length
    · refine ⟨t1, ?_, ?_, hc1, hs1⟩
      · simp only [selectLoop]
        rw [h1]
        simp only []
        rw [if_pos (by simpa using hstop)]
      · intro x hx
        exact ⟨(f, txs), by simp, ht1mem x hx⟩
    · obtain ⟨t2, h2, hmem2, hc2, hs2⟩ := ih (sel ++ t1) (total + sizeSum t1)
      refine ⟨t1 ++ t2, ?_, ?_, ?_, ?_⟩
      · simp only [selectLoop]
        rw [h1]
        simp only []
        rw [if_neg (by simpa using hstop), h2]
        simp [List.append_assoc, sizeSum, Nat.add_assoc]
      · intro x hx
        rcases List.mem_append.mp hx with hx1 | hx2
        · exact ⟨(f, txs), by simp, ht1mem x hx1⟩
        · obtain ⟨e2, he2, hxe2⟩ := hmem2 x hx2
          exact ⟨e2, List.mem_cons_of_mem _ he2, hxe2⟩
      · intro hsel
        have h3 := hc2 (hc1 hsel)
        simpa [List.append_assoc] using h3
      · intro htot
        have h4 := hs2 (hs1 htot)
        have hsplit : sizeSum (t1 ++ t2) = sizeSum t1 + sizeSum t2 := by simp [sizeSum]
        omega

/-- A list of transactions that all share one fee is trivially sorted by
non-increasing fee. -/
lemma pairwise_const_fee (f : Nat) :
    ∀ (t : List Transaction), (∀ x ∈ t, x.fee = f) →
      List.Pairwise (fun a b => b.fee ≤ a.fee) t := by
  intro t
  induction t with
  | nil => intro _; exact List.Pairwise.nil
  | cons x xs ih =>
    intro hall
    refine List.pairwise_cons.mpr ⟨?_, ih fun y hy => hall y (List.mem_cons_of_mem _ hy)⟩
    intro y hy
    rw [hall x (List.mem_cons_self _ _), hall y (List.mem_cons_of_mem _ hy)]

/-- Iterating buckets whose keys strictly decrease and whose contents carry
exactly their key's fee extends a fee-sorted selection to a fee-sorted
selection: the returned transactions are ordered by non-increasing fee. -/
lemma selectLoop_pairwise (maxN maxS : Nat) :
    ∀ (bs : List (Nat × List Transaction)) (sel : List Transaction) (total : Nat),
      (∀ e ∈ bs, ∀ tx ∈ e.2, tx.fee = e.1) →
      List.Pairwise (fun a b => b.1 < a.1) bs →
      List.Pairwise (fun a b => b.fee ≤ a.fee) sel →
      (∀ x ∈ sel, ∀ e ∈ bs, e.1 ≤ x.fee) →
      List.Pairwise (fun a b => b.fee ≤ a.fee) (selectLoop maxN maxS bs sel total).1 := by
  intro bs
  induction bs with
  | nil =>
    intro sel total _ _ hsel _
    simpa [selectLoop] using hsel
  | cons e rest ih =>
    obtain ⟨f, txs⟩ := e
    intro sel total hbf hdesc hsel hbound
    obtain ⟨t1, h1, ⟨tail1, htail1⟩, _, _⟩ := selectBucket_spec maxN maxS txs sel total
    have ht1fee : ∀ x ∈ t1, x.fee = f := by
      intro x hx
      exact hbf (f, txs) (List.mem_cons_self _ _) x (htail1 ▸ List.mem_append_left _ hx)
    have hsel' : List.Pairwise (fun a b => b.fee ≤ a.fee) (sel ++ t1) := by
      rw [List.pairwise_append]
      refine ⟨hsel, pairwise_const_fee f t1 ht1fee, ?_⟩
      intro a ha b hb
      rw [ht1fee b hb]
      exact hbound a ha (f, txs) (List.mem_cons_self _ _)
    simp only [selectLoop]
    rw [h1]
    simp only []
    by_cases hstop : maxN ≤ (sel ++ t1).length
    · rw [if_pos hstop]
      exact hsel'
    · rw [if_neg hstop]
      apply ih (sel ++ t1) (total + sizeSum t1)
      · intro e2 he2 tx htx
        exact hbf e2 (List.mem_cons_of_mem _ he2) tx htx
      · exact hdesc.of_cons
      · exact hsel'
      · intro x hx e2 he2
        have hlt : e2.1 < f := (List.pairwise_cons.mp hdesc).1 e2 he2
        rcases List.mem_append.mp hx with hx1 | hx2
        · have := hbound x hx1 (f, txs) (List.mem_cons_self _ _)
          omega
        · rw [ht1fee x hx2]
          omega

/-- After `remove_transaction id`, no pending transaction carries `id`. -/
lemma removeTransaction_pending_ne (p : TransactionPool) (i : List Nat) :
    ∀ tx ∈ (removeTransaction p i).pending_transactions, ¬ tx.id = i := by
  intro tx htx
  have h := (List.mem_filter.mp htx).2
  simpa using h

/-- `remove_transaction` only filters the pending list. -/
lemma removeTransaction_pending_sub (p : TransactionPool) (i : List Nat) :
    ∀ tx ∈ (removeTransaction p i).pending_transactions, tx ∈ p.pending_transactions := by
  intro tx htx
  exact (List.mem_filter.mp htx).1

/-- After `remove_transaction id`, no fee bucket holds a transaction with
`id`. -/
lemma removeTransaction_bucket_ne (p : TransactionPool) (i : List Nat) :
    ∀ e ∈ (removeTransaction p i).by_fee, ∀ tx ∈ e.2, ¬ tx.id = i := by
  intro e he tx htx
  have he1 := (List.mem_filter.mp he).1
  obtain ⟨e0, _, heq⟩ := List.mem_map.mp he1
  have : tx ∈ e0.2.filter fun tx => !(tx.id == i) := by
    rw [← heq] at htx
    exact htx
  have h := (List.mem_filter.mp this).2
  simpa using h

/-- `remove_transaction` only filters the buckets: any surviving bucket
transaction already sat in some bucket of the input pool. -/
lemma removeTransaction_bucket_sub (p : TransactionPool) (i : List Nat) :
    ∀ e ∈ (removeTransaction p i).by_fee, ∀ tx ∈ e.2,
      ∃ e0 ∈ p.by_fee, tx ∈ e0.2 := by
  intro e he tx htx
  have he1 := (List.mem_filter.mp he).1
  obtain ⟨e0, he0, heq⟩ := List.mem_map.mp he1
  refine ⟨e0, he0, ?_⟩
  have : tx ∈ e0.2.filter fun tx => !(tx.id == i) := by
    rw [← heq] at htx
    exact htx
  exact (List.mem_filter.mp this).1

/-- Folding `remove_transaction` only shrinks the pending list. -/
lemma foldRemove_pending_sub :
    ∀ (sel : List Transaction) (p : TransactionPool) (tx : Transaction),
      tx ∈ (sel.foldl (fun q t => removeTransaction q t.id) p).pending_transactions →
      tx ∈ p.pending_transactions := by
  intro sel
  induction sel with
  | nil => intro p tx htx; exact htx
  | cons s rest ih =>
    intro p tx htx
    exact removeTransaction_pending_sub p s.id tx (ih _ tx htx)

/-- Folding `remove_transaction` only shrinks the buckets. -/
lemma foldRemove_bucket_sub :
    ∀ (sel : List Transaction) (p : TransactionPool) (tx : Transaction),
      (∃ e ∈ (sel.foldl (fun q t => removeTransaction q t.id) p).by_fee, tx ∈ e.2) →
      ∃ e0 ∈ p.by_fee, tx ∈ e0.2 := by
  intro sel
  induction sel with
  | nil => intro p tx htx; exact htx
  | cons s rest ih =>
    intro p tx htx
    obtain ⟨e0, he0, htx0⟩ := ih _ tx htx
    exact removeTransaction_bucket_sub p s.id e0 he0 tx htx0

/-- Every id removed during the fold is absent from the final pending list. -/
lemma foldRemove_pending_ne :
    ∀ (sel : List Transaction) (p : TransactionPool) (t : Transaction), t ∈ sel →
      ∀ tx ∈ (sel.foldl (fun q t => removeTransaction q t.id) p).pending_transactions,
        ¬ tx.id = t.id := by
  intro sel
  induction sel with
  | nil => intro p t ht; exact absurd ht (List.not_mem_nil _)
  | cons s rest ih =>
    intro p t ht tx htx
    rcases List.mem_cons.mp ht with rfl | ht'
    · exact removeTransaction_pending_ne p t.id tx (foldRemove_pending_sub rest _ tx htx)
    · exact ih _ t ht' tx htx

/-- Every id removed during the fold is absent from every final bucket. -/
lemma foldRemove_bucket_ne :
    ∀ (sel : List Transaction) (p : TransactionPool) (t : Transaction), t ∈ sel →
      ∀ e ∈ (sel.foldl (fun q t => removeTransaction q t.id) p).by_fee, ∀ tx ∈ e.2,
        ¬ tx.id = t.id := by
  intro sel
  induction sel with
  | nil => intro p t ht; exact absurd ht (List.not_mem_nil _)
  | cons s rest ih =>
    intro p t ht e he tx htx
    rcases List.mem_cons.mp ht with rfl | ht'
    · obtain ⟨e0, he0, htx0⟩ := foldRemove_bucket_sub rest _ tx ⟨e, he, htx⟩
      exact removeTransaction_bucket_ne p t.id e0 he0 tx htx0
    · exact ih _ t ht' e he tx htx

/-- Inversion of a successful `add_transaction`: the transaction was valid,
the pool had room, and the result is exactly the two appends. -/
lemma addTransaction_ok_inv (p : TransactionPool) (t : Transaction) (p' : TransactionPool)
    (h : addTransaction p t = .ok p') :
    t.is_valid = true ∧
    p.pending_transactions.length < p.max_transactions_per_block ∧
    p' = { p with
      pending_transactions := p.pending_transactions ++ [t],
      by_fee := bucketInsert t.fee t p.by_fee } := by
  unfold addTransaction at h
  split at h
  · cases h
  · next hval =>
    split at h
    · cases h
    · next hlen =>
      cases h
      exact ⟨by simpa using hval, not_le.mp hlen, rfl⟩

/-- A key smaller than every key in the association list is absent. -/
lemma bucketLookup_none_of_lt :
    ∀ (l : List (Nat × List Transaction)) (f : Nat),
      (∀ e ∈ l, f < e.1) → bucketLookup l f = none := by
  intro l
  induction l with
  | nil => intro f _; rfl
  | cons e rest ih =>
    obtain ⟨k, txs⟩ := e
    intro f hall
    have hk : f < k := hall (k, txs) (List.mem_cons_self _ _)
    simp only [bucketLookup]
    rw [if_neg (by omega), ih f fun e he => hall e (List.mem_cons_of_mem _ he)]

/-- On a strictly-ascending association list, `bucketInsert` appends to the
bucket under the exact key, creating it when absent: looking the key up
afterwards yields the old bucket (empty when missing) with the transaction
appended. -/
lemma bucketLookup_bucketInsert (f : Nat) (tx : Transaction) :
    ∀ (l : List (Nat × List Transaction)),
      List.Pairwise (fun a b => a.1 < b.1) l →
      bucketLookup (bucketInsert f tx l) f = some ((bucketLookup l f).getD [] ++ [tx]) := by
  intro l
  induction l with
  | nil => simp [bucketInsert, bucketLookup]
  | cons e rest ih =>
    obtain ⟨k, txs⟩ := e
    intro hsort
    by_cases h1 : f < k
    · have hrest : bucketLookup rest f = none := by
        apply bucketLookup_none_of_lt
        intro e2 he2
        have := (List.pairwise_cons.mp hsort).1 e2 he2
        omega
      simp [bucketInsert, bucketLookup, h1, hrest, (by omega : ¬ k = f)]
      rw [if_neg (by omega : ¬ k = f)]
      rfl
    · by_cases h2 : f = k
      · subst h2
        simp [bucketInsert, bucketLookup]
      · have hne : ¬ k = f := fun hh => h2 hh.symm
        have hgoal := ih (List.pairwise_cons.mp hsort).2
        simp only [bucketInsert, bucketLookup]
        rw [if_neg h1, if_neg h2]
        simp only [bucketLookup]
        rw [if_neg hne, if_neg hne]
        exact hgoal

/-- `BlockBuilder::add_transaction` never touches the chain. -/
lemma add_transaction_blockchain (b : BlockBuilder) (t : Transaction) :
    (b.add_transaction t).1.blockchain = b.blockchain := by
  unfold BlockBuilder.add_transaction
  split
  all_goals rfl

/-- `create_block` never touches the chain (it only reads the tip). -/
lemma createBlock_blockchain (H : HashFn) (now : Nat) (b : BlockBuilder) :
    (createBlock H now b).2.blockchain = b.blockchain := by
  unfold createBlock
  split
  · rfl
  · split
    · rfl
    · split
      · rfl
      · split
        · rfl
        · rfl

/-- When `create_block` yields a candidate, the chain was nonempty and the
candidate's previous digest equals the tip's current digest. -/
lemma createBlock_some (H : HashFn) (now : Nat) (b : BlockBuilder) (blk : Block)
    (b1 : BlockBuilder) (h : createBlock H now b = (some blk, b1)) :
    ∃ prev, b.blockchain.blocks.getLast? = some prev ∧
      blk.previous_block_hash = prev.current_block_hash := by
  unfold createBlock at h
  split at h
  · simp at h
  · split at h
    · simp at h
    · split at h
      · simp at h
      · next prev heq =>
        split at h
        · simp at h
        · next ph hph =>
          have hblk : blk = Block.new H now (prev.index + 1)
              (pullTransactionsForBlock b.transaction_pool).1 ph := by
            have hfst := congrArg Prod.fst h
            simp at hfst
            exact hfst.symm
          refine ⟨prev, heq, ?_⟩
          rw [hblk, hph]
          rfl

/-- Appending a block whose previous digest matches the tip's current digest
preserves the linking invariant. -/
lemma chainLinked_append (blocks : List Block) (m prev : Block)
    (hlast : blocks.getLast? = some prev)
    (hlink : m.previous_block_hash = prev.current_block_hash)
    (hl : chainLinked blocks) : chainLinked (blocks ++ [m]) := by
  obtain ⟨hhead, hchain⟩ := hl
  constructor
  · intro b0 hb0
    cases blocks with
    | nil => simp at hlast
    | cons a rest => exact hhead b0 hb0
  · rw [List.chain'_append]
    refine ⟨hchain, List.chain'_singleton _, ?_⟩
    intro x hx y hy
    rw [Option.mem_def] at hx hy
    rw [hlast] at hx
    have hx' : prev = x := Option.some.inj hx
    have hy' : m = y := by simpa using hy
    rw [← hx', ← hy']
    exact hlink

/-- A terminating `mine_and_add_block` preserves the linking invariant: when
a block is appended, it was built on the tip's digest and mining did not
rewrite its previous digest. -/
lemma mineAndAddBlock_linked (H : HashFn) (now fuel : Nat) (b b' : BlockBuilder)
    (r : Except StoreError Hash)
    (h : mineAndAddBlock H now fuel b = some (b', r))
    (hl : chainLinked b.blockchain.blocks) : chainLinked b'.blockchain.blocks := by
  unfold mineAndAddBlock at h
  split at h
  · next b1 hcb =>
    injection h with h2
    injection h2 with h3 h4
    rw [← h3]
    have hc := createBlock_blockchain H now b
    rw [hcb] at hc
    rw [show b1.blockchain = b.blockchain from hc]
    exact hl
  · next blk b1 hcb =>
    split at h
    · cases h
    · next mined hm =>
      injection h with h2
      injection h2 with h3 h4
      rw [← h3]
      obtain ⟨prev, hlast, hprev⟩ := createBlock_some H now b blk b1 hcb
      have hc := createBlock_blockchain H now b
      rw [hcb] at hc
      have hframe := (mineBlock_frame H fuel blk blk.difficulty mined hm).2.2.2.1
      show chainLinked (b1.blockchain.blocks ++ [mined])
      rw [show b1.blockchain = b.blockchain from hc]
      exact chainLinked_append _ mined prev hlast (hframe.trans hprev) hl

/-- Claim C1: every builder state reachable by constructing a chain through
`load_or_create` and repeatedly adding transactions and sealing blocks
through `mine_and_add_block` has a linked block list: the first block (when
one exists) has no previous digest, and each block's previous digest equals
its predecessor's current digest. -/
theorem reachable_chain_linked (H : HashFn) (b : BlockBuilder)
    (h : ReachableBuilder H b) : chainLinked b.blockchain.blocks := by
  induction h with
  | created now =>
    constructor
    · intro b0 hb0
      have hg : Block.genesis H now = b0 := by
        simpa [BlockBuilder.new, createNewChain] using hb0
      rw [← hg]
      rfl
    · exact List.chain'_singleton _
  | loaded p =>
    constructor
    · intro b0 hb0
      simp [BlockBuilder.new, deserializeChain] at hb0
    · simp [BlockBuilder.new, deserializeChain]
  | added b t hb ih =>
    rw [add_transaction_blockchain]
    exact ih
  | mined b b' now fuel r hb hm ih =>
    exact mineAndAddBlock_linked H now fuel b b' r hm ih

/-- Witness for C1 at a concrete reachable state: the freshly created chain
(genesis only) satisfies the linking invariant. -/
theorem reachable_chain_linked_witness :
    chainLinked (BlockBuilder.new (createNewChain shaModel 0)).blockchain.blocks :=
  reachable_chain_linked shaModel _ (ReachableBuilder.created 0)

/-- Claim C2 counterexample: at difficulty 65 the zero-target has 65
characters while every digest has 64, so `mine_block` never terminates — the
claim that mining terminates for every difficulty is false. -/
theorem mine_difficulty65_diverges :
    minesForever shaModel (Block.genesis shaModel 0) 65 :=
  fun fuel => mineBlock65_none fuel _

/-- Claim C2 (amended): whenever `mine_block` returns, the block's stored
current digest equals the digest recomputed from the final stored nonce and
the other fields, and its hex form has at least `d` leading zero
characters. -/
theorem mine_success_spec (H : HashFn) (fuel : Nat) (b : Block) (d : Nat)
    (b' : Block) (h : mineBlock H fuel b d = some b') :
    b'.current_block_hash = some (computeHash H b') ∧
    (List.replicate d (0 : Fin 16)).isPrefixOf (computeHash H b').value = true :=
  mineBlock_post H fuel b d b' h

/-- Witness for C2 at a concrete input: under the all-zero digest function
mining at difficulty 1 succeeds at once and the postcondition holds. -/
theorem mine_success_spec_witness :
    mineBlock Hzero 1 witnessBlock 1 = some minedWitnessBlock ∧
    (minedWitnessBlock.current_block_hash = some (computeHash Hzero minedWitnessBlock) ∧
     (List.replicate 1 (0 : Fin 16)).isPrefixOf (computeHash Hzero minedWitnessBlock).value = true) :=
  ⟨rfl, mine_success_spec Hzero 1 witnessBlock 1 minedWitnessBlock rfl⟩

/-- Claim C10: mining mutates only the nonce and the current digest; index,
timestamp, transactions, previous digest, merkle root, data and difficulty
are returned unchanged. -/
theorem mine_frame (H : HashFn) (fuel : Nat) (b : Block) (d : Nat) (b' : Block)
    (h : mineBlock H fuel b d = some b') :
    b'.index = b.index ∧ b'.timestamp = b.timestamp ∧
    b'.transactions = b.transactions ∧
    b'.previous_block_hash = b.previous_block_hash ∧
    b'.merkle_root = b.merkle_root ∧ b'.data = b.data ∧
    b'.difficulty = b.difficulty :=
  mineBlock_frame H fuel b d b' h

/-- Witness for C10 at a concrete input: one mining step on a block with a
transaction and a previous digest leaves all frame fields unchanged. -/
theorem mine_frame_witness :
    mineBlock Hzero 1 frameBlock 2 = some minedFrameBlock ∧
    (minedFrameBlock.index = frameBlock.index ∧
     minedFrameBlock.timestamp = frameBlock.timestamp ∧
     minedFrameBlock.transactions = frameBlock.transactions ∧
     minedFrameBlock.previous_block_hash = frameBlock.previous_block_hash ∧
     minedFrameBlock.merkle_root = frameBlock.merkle_root ∧
     minedFrameBlock.data = frameBlock.data ∧
     minedFrameBlock.difficulty = frameBlock.difficulty) :=
  ⟨rfl, mine_frame Hzero 1 frameBlock 2 minedFrameBlock rfl⟩

/-- Claim C6 (amended): a genesis block has index 0, an empty transaction
list, the reserved all-zero sentinel — not the digest of an empty byte
sequence — as its merkle value, no previous digest, nonce 0, the fixed
difficulty 4, and a current digest computed immediately at construction. -/
theorem genesis_fields (H : HashFn) (now : Nat) :
    (Block.genesis H now).index = 0 ∧
    (Block.genesis H now).transactions = [] ∧
    (Block.genesis H now).merkle_root = Hash.genesis ∧
    (Block.genesis H now).previous_block_hash = none ∧
    (Block.genesis H now).nonce = 0 ∧
    (Block.genesis H now).difficulty = 4 ∧
    (Block.genesis H now).current_block_hash = some (computeHash H (Block.genesis H now)) :=
  ⟨rfl, rfl, rfl, rfl, rfl, rfl, rfl⟩

/-- Claim C6 counterexample: the genesis merkle value is the all-zero
sentinel `Hash::genesis()`, not the digest of an empty byte sequence —
SHA-256 of the empty input is e3b0c442…, which is not the all-zero string. -/
theorem genesis_merkle_not_empty_digest :
    (Block.genesis shaModel 0).merkle_root ≠ calculateMerkleRoot shaModel [] := by
  decide

/-- Claim C9: the persisted record keeps the difficulty, the genesis digest
and the initialization time but omits the block list (`#[serde(skip)]`), so
serializing the freshly created one-block chain and deserializing the result
yields a chain with no blocks at all. -/
theorem persisted_roundtrip_drops_blocks :
    serializeChain (createNewChain shaModel 0) =
      ⟨(createNewChain shaModel 0).difficulty,
       (createNewChain shaModel 0).genesis_block_hash,
       (createNewChain shaModel 0).initialized_at⟩ ∧
    (deserializeChain (serializeChain (createNewChain shaModel 0))).blocks = [] ∧
    (createNewChain shaModel 0).blocks.length = 1 :=
  ⟨rfl, rfl, rfl⟩

/-- Buckets whose keys all differ from `f` contribute no fee-`f`
transactions: iterating them leaves the fee-`f` part of the selection
unchanged. -/
lemma selectLoop_filter_frame (maxN maxS f : Nat)
    (bs : List (Nat × List Transaction)) (sel : List Transaction) (total : Nat)
    (hcont : ∀ e ∈ bs, ∀ tx ∈ e.2, tx.fee = e.1)
    (hne : ∀ e ∈ bs, ¬ e.1 = f) :
    (selectLoop maxN maxS bs sel total).1.filter (fun tx => tx.fee == f) =
      sel.filter (fun tx => tx.fee == f) := by
  obtain ⟨t, heq, hmem, _, _⟩ := selectLoop_spec maxN maxS bs sel total
  rw [heq]
  show ((sel ++ t).filter fun tx => tx.fee == f) = sel.filter fun tx => tx.fee == f
  rw [List.filter_append]
  have ht : (t.filter fun tx => tx.fee == f) = [] := by
    rw [List.filter_eq_nil_iff]
    intro x hx
    obtain ⟨e, he, hxe⟩ := hmem x hx
    have hxf := hcont e he x hxe
    simpa [hxf] using hne e he
  rw [ht, List.append_nil]

/-- FIFO within a bucket: whatever bucket is stored under key `f`, the
fee-`f` transactions of the final selection form, in selection order, a
prefix of that bucket (the inner loop walks the bucket front to back and
never revisits it). -/
lemma selectLoop_fifo (maxN maxS f : Nat) :
    ∀ (bs : List (Nat × List Transaction)) (sel : List Transaction) (total : Nat)
      (txs : List Transaction),
      (∀ e ∈ bs, ∀ tx ∈ e.2, tx.fee = e.1) →
      List.Pairwise (fun a b => b.1 < a.1) bs →
      (f, txs) ∈ bs →
      (∀ x ∈ sel, ¬ x.fee = f) →
      ∃ rest, txs =
        ((selectLoop maxN maxS bs sel total).1.filter fun tx => tx.fee == f) ++ rest := by
  intro bs
  induction bs with
  | nil =>
    intro sel total txs _ _ hmem _
    exact absurd hmem (List.not_mem_nil _)
  | cons e rest ih =>
    obtain ⟨k, ktxs⟩ := e
    intro sel total txs hcont hdesc hmem hsel
    obtain ⟨t1, h1, ⟨tail1, htail1⟩, _, _⟩ := selectBucket_spec maxN maxS ktxs sel total
    have ht1fee : ∀ x ∈ t1, x.fee = k := fun x hx =>
      hcont (k, ktxs) (List.mem_cons_self _ _) x (htail1 ▸ List.mem_append_left _ hx)
    simp only [selectLoop]
    rw [h1]
    simp only []
    rcases List.mem_cons.mp hmem with heq | hrest
    · injection heq with hfk htxs
      subst hfk
      subst htxs
      have hfilter : ((sel ++ t1).filter fun tx => tx.fee == f) = t1 := by
        rw [List.filter_append]
        have hs : (sel.filter fun tx => tx.fee == f) = [] := by
          rw [List.filter_eq_nil_iff]
          intro x hx
          simpa using hsel x hx
        have ht : (t1.filter fun tx => tx.fee == f) = t1 := by
          rw [List.filter_eq_self]
          intro x hx
          simpa using ht1fee x hx
        rw [hs, ht, List.nil_append]
      by_cases hstop : maxN ≤ (sel ++ t1).length
      · rw [if_pos hstop]
        rw [hfilter]
        exact ⟨tail1, htail1⟩
      · rw [if_neg hstop]
        have hframe := selectLoop_filter_frame maxN maxS f rest (sel ++ t1) (total + sizeSum t1)
          (fun e he tx htx => hcont e (List.mem_cons_of_mem _ he) tx htx)
          (fun e he => by
            have := (List.pairwise_cons.mp hdesc).1 e he
            omega)
        rw [hframe, hfilter]
        exact ⟨tail1, htail1⟩
    · have hkne : ¬ k = f := by
        intro hk
        have := (List.pairwise_cons.mp hdesc).1 (f, txs) hrest
        omega
      have hsel' : ∀ x ∈ sel ++ t1, ¬ x.fee = f := by
        intro x hx
        rcases List.mem_append.mp hx with h | h
        · exact hsel x h
        · rw [ht1fee x h]
          exact hkne
      by_cases hstop : maxN ≤ (sel ++ t1).length
      · rw [if_pos hstop]
        have hf0 : ((sel ++ t1).filter fun tx => tx.fee == f) = [] := by
          rw [List.filter_eq_nil_iff]
          intro x hx
          simpa using hsel' x hx
        rw [hf0]
        exact ⟨txs, rfl⟩
      · rw [if_neg hstop]
        exact ih (sel ++ t1) (total + sizeSum t1) txs
          (fun e he tx htx => hcont e (List.mem_cons_of_mem _ he) tx htx)
          hdesc.of_cons hrest hsel'

/-- Claim C3 counterexample: in `overflowPool` the highest-fee candidate
alone already violates the size budget (125 > 110), yet selection does not
stop there: it skips to the lower-fee bucket and still returns that bucket's
transaction — so `pull_transactions_for_block` does not stop as soon as a
candidate would violate a cap. -/
theorem pull_no_early_stop :
    overflowPool.max_block_size < estimateTransactionSize txBig ∧
    overflowPool.by_fee.reverse = [(10, [txBig]), (5, [txSmall])] ∧
    (pullTransactionsForBlock overflowPool).1 = [txSmall] :=
  ⟨by decide, by decide, by decide⟩

/-- Claim C3 (amended): selection never returns more than the configured
count nor a cumulative estimated size over the budget; under the BTreeMap
invariant the result is ordered by non-increasing fee (descending buckets),
and FIFO holds inside each bucket: for every fee bucket, the selected
transactions of that fee form, in selection order, a prefix of the bucket's
stored (insertion) order. When a candidate would violate the size budget the
rest of its bucket is skipped and lower-fee buckets are still visited, and
only the count cap stops the whole scan. With pending fees {5, 10, 1} and a
cap of 2 it returns the fee-10 then the fee-5 transaction and leaves the
fee-1 transaction pending; with two equal-fee transactions in one bucket
both are returned in insertion order. -/
theorem pull_selection_policy :
    (∀ p : TransactionPool,
      (pullTransactionsForBlock p).1.length ≤ p.max_transactions_per_block ∧
      sizeSum (pullTransactionsForBlock p).1 ≤ p.max_block_size) ∧
    (∀ p : TransactionPool, PoolWF p →
      List.Pairwise (fun a b => b.fee ≤ a.fee) (pullTransactionsForBlock p).1) ∧
    (∀ p : TransactionPool, PoolWF p → ∀ f txs, (f, txs) ∈ p.by_fee →
      ∃ rest, txs =
        ((pullTransactionsForBlock p).1.filter fun tx => tx.fee == f) ++ rest) ∧
    (pullTransactionsForBlock examplePool).1 = [tx10, tx5] ∧
    (pullTransactionsForBlock examplePool).2.pending_transactions = [tx1] ∧
    (pullTransactionsForBlock fifoPool).1 = [txA5, txB5] := by
  refine ⟨?_, ?_, ?_, by decide, by decide, by decide⟩
  · intro p
    obtain ⟨t, heq, _, hc, hs⟩ :=
      selectLoop_spec p.max_transactions_per_block p.max_block_size p.by_fee.reverse [] 0
    have h1 : (pullTransactionsForBlock p).1 = [] ++ t := by
      show (selectLoop p.max_transactions_per_block p.max_block_size p.by_fee.reverse [] 0).1
        = [] ++ t
      rw [heq]
    rw [h1]
    constructor
    · simpa using hc (by simp)
    · simpa using hs (Nat.zero_le _)
  · intro p hwf
    have hcont : ∀ e ∈ p.by_fee.reverse, ∀ tx ∈ e.2, tx.fee = e.1 := by
      intro e he
      exact hwf.2 e (List.mem_reverse.mp he)
    have hdesc : List.Pairwise (fun a b => b.1 < a.1) p.by_fee.reverse :=
      List.pairwise_reverse.mpr hwf.1
    exact selectLoop_pairwise p.max_transactions_per_block p.max_block_size
      p.by_fee.reverse [] 0 hcont hdesc (by simp) (by simp)
  · intro p hwf f txs hmem
    have hcont : ∀ e ∈ p.by_fee.reverse, ∀ tx ∈ e.2, tx.fee = e.1 := by
      intro e he
      exact hwf.2 e (List.mem_reverse.mp he)
    have hdesc : List.Pairwise (fun a b => b.1 < a.1) p.by_fee.reverse :=
      List.pairwise_reverse.mpr hwf.1
    obtain ⟨rest, hr⟩ := selectLoop_fifo p.max_transactions_per_block p.max_block_size f
      p.by_fee.reverse [] 0 txs hcont hdesc (List.mem_reverse.mpr hmem) (by simp)
    exact ⟨rest, hr⟩

/-- Witness for C3's conditional parts at concrete inputs: the example pool
satisfies the BTreeMap invariant and its selection is fee-sorted, and in
`fifoPool` the selected fee-5 transactions are a prefix (in insertion order)
of the fee-5 bucket. -/
theorem pull_selection_policy_witness :
    PoolWF examplePool ∧
    List.Pairwise (fun a b => b.fee ≤ a.fee) (pullTransactionsForBlock examplePool).1 ∧
    (PoolWF fifoPool ∧ (5, [txA5, txB5]) ∈ fifoPool.by_fee ∧
     ∃ rest, [txA5, txB5] =
       ((pullTransactionsForBlock fifoPool).1.filter fun tx => tx.fee == 5) ++ rest) :=
  ⟨⟨by decide, by decide⟩,
   pull_selection_policy.2.1 examplePool ⟨by decide, by decide⟩,
   ⟨by decide, by decide⟩, by decide,
   pull_selection_policy.2.2.1 fifoPool ⟨by decide, by decide⟩ 5 [txA5, txB5] (by decide)⟩

/-- Claim C4: every transaction returned by `pull_transactions_for_block` is
removed — by id, from the pending list and from every fee bucket — in the
pool the call returns, so no transaction is both returned and left
pending. -/
theorem pull_removes_selected (p : TransactionPool) (t : Transaction)
    (ht : t ∈ (pullTransactionsForBlock p).1) :
    (∀ tx ∈ (pullTransactionsForBlock p).2.pending_transactions, ¬ tx.id = t.id) ∧
    (∀ e ∈ (pullTransactionsForBlock p).2.by_fee, ∀ tx ∈ e.2, ¬ tx.id = t.id) := by
  have hsnd : (pullTransactionsForBlock p).2 =
      (pullTransactionsForBlock p).1.foldl (fun q tx => removeTransaction q tx.id) p := rfl
  refine ⟨?_, ?_⟩
  · intro tx htx
    rw [hsnd] at htx
    exact foldRemove_pending_ne _ p t ht tx htx
  · intro e he tx htx
    rw [hsnd] at he
    exact foldRemove_bucket_ne _ p t ht e he tx htx

/-- Witness for C4 at a concrete input: the fee-10 transaction returned from
the example pool is in no pending slot and no bucket of the result. -/
theorem pull_removes_selected_witness :
    tx10 ∈ (pullTransactionsForBlock examplePool).1 ∧
    ((∀ tx ∈ (pullTransactionsForBlock examplePool).2.pending_transactions,
        ¬ tx.id = tx10.id) ∧
     (∀ e ∈ (pullTransactionsForBlock examplePool).2.by_fee, ∀ tx ∈ e.2,
        ¬ tx.id = tx10.id)) :=
  ⟨by decide, pull_removes_selected examplePool tx10 (by decide)⟩

/-- Claim C5: `add_transaction` fails with the invalid-transaction error
exactly when the validity predicate fails — that is, when the amount is
zero, the sender equals the recipient, or the signature is absent; for a
valid transaction it fails with the pool-full error when the pending count
is at (or beyond) the configured maximum; otherwise it succeeds, appending
the transaction to the pending list and to the bucket under its exact fee,
creating that bucket if absent. -/
theorem add_transaction_spec (p : TransactionPool) (t : Transaction) :
    ((addTransaction p t = .error "Invalid transaction") ↔ ¬ t.is_valid = true) ∧
    (t.is_valid = true ↔
      ¬(t.amount = 0 ∨ addressEq t.from_ t.to_ = true ∨ t.signature = none)) ∧
    (t.is_valid = true → p.max_transactions_per_block ≤ p.pending_transactions.length →
      addTransaction p t = .error "Transaction pool is full") ∧
    (t.is_valid = true → p.pending_transactions.length < p.max_transactions_per_block →
      addTransaction p t = .ok { p with
        pending_transactions := p.pending_transactions ++ [t],
        by_fee := bucketInsert t.fee t p.by_fee } ∧
      (List.Pairwise (fun a b => a.1 < b.1) p.by_fee →
        bucketLookup (bucketInsert t.fee t p.by_fee) t.fee =
          some ((bucketLookup p.by_fee t.fee).getD [] ++ [t]))) := by
  refine ⟨?_, ?_, ?_, ?_⟩
  · constructor
    · intro h hv
      simp only [addTransaction, hv, Bool.not_true, Bool.false_eq_true, if_false] at h
      split at h
      · injection h with hs
        exact absurd hs (by decide)
      · cases h
    · intro hv
      rw [Bool.not_eq_true] at hv
      simp [addTransaction, hv]
  · unfold Transaction.is_valid
    constructor
    · intro h
      simp only [Bool.and_eq_true, decide_eq_true_eq, Bool.not_eq_true'] at h
      intro habs
      rcases habs with h1 | h2 | h3
      · omega
      · rw [h.1.2] at h2
        cases h2
      · rw [h3] at h
        simp at h
    · intro h
      rw [not_or, not_or] at h
      obtain ⟨h1, h2, h3⟩ := h
      simp only [Bool.and_eq_true, decide_eq_true_eq, Bool.not_eq_true']
      refine ⟨⟨by omega, by simpa using h2⟩, ?_⟩
      simpa [Option.isSome_iff_ne_none] using h3
  · intro hv hfull
    simp [addTransaction, hv, hfull]
  · intro hv hroom
    refine ⟨?_, ?_⟩
    · simp [addTransaction, hv, not_le.mpr hroom]
    · intro hsort
      exact bucketLookup_bucketInsert t.fee t p.by_fee hsort

/-- Witness for C5 at a concrete input: adding a valid fee-5 transaction to
an empty pool with room succeeds and stores it in a fresh fee-5 bucket. -/
theorem add_transaction_spec_witness :
    tx5.is_valid = true ∧
    (TransactionPool.new 5 1024).pending_transactions.length <
      (TransactionPool.new 5 1024).max_transactions_per_block ∧
    (addTransaction (TransactionPool.new 5 1024) tx5 = .ok { TransactionPool.new 5 1024 with
        pending_transactions := (TransactionPool.new 5 1024).pending_transactions ++ [tx5],
        by_fee := bucketInsert tx5.fee tx5 (TransactionPool.new 5 1024).by_fee } ∧
      (List.Pairwise (fun a b => a.1 < b.1) (TransactionPool.new 5 1024).by_fee →
        bucketLookup (bucketInsert tx5.fee tx5 (TransactionPool.new 5 1024).by_fee) tx5.fee =
          some ((bucketLookup (TransactionPool.new 5 1024).by_fee tx5.fee).getD [] ++ [tx5]))) :=
  ⟨by decide, by decide,
   (add_transaction_spec (TransactionPool.new 5 1024) tx5).2.2.2 (by decide) (by decide)⟩

/-- Claim C7 counterexample: a pool reachable by two successful adds whose
pending cumulative estimated size (210 bytes) far exceeds its configured
1-byte block-size budget — `add_transaction` never checks the size budget,
only the count. -/
theorem pool_size_budget_not_enforced :
    PoolReachable tinyPool2 ∧
    tinyPool2.max_block_size < sizeSum tinyPool2.pending_transactions := by
  constructor
  · have h1 : addTransaction (TransactionPool.new 2 1) tx5 = .ok tinyPool1 := by rfl
    have h2 : addTransaction tinyPool1 tx10 = .ok tinyPool2 := by rfl
    exact PoolReachable.added _ _ _ (PoolReachable.added _ _ _ (PoolReachable.fresh 2 1) h1) h2
  · decide

/-- Claim C7 (amended): in every pool state reachable through successful
adds the pending count never exceeds the configured maximum; the cumulative
size budget is not enforced by add (it only constrains selection). -/
theorem pool_count_bounded (p : TransactionPool) (h : PoolReachable p) :
    p.pending_transactions.length ≤ p.max_transactions_per_block := by
  induction h with
  | fresh maxN maxS => simp [TransactionPool.new]
  | added q q' t hq hadd ih =>
    obtain ⟨_, hroom, heq⟩ := addTransaction_ok_inv q t q' hadd
    subst heq
    show (q.pending_transactions ++ [t]).length ≤ q.max_transactions_per_block
    simp only [List.length_append, List.length_cons, List.length_nil]
    omega

/-- Witness for C7 at a concrete reachable state. -/
theorem pool_count_bounded_witness :
    (TransactionPool.new 2 1).pending_transactions.length ≤
      (TransactionPool.new 2 1).max_transactions_per_block :=
  pool_count_bounded _ (PoolReachable.fresh 2 1)

/-- Claim C8 counterexample: on the fresh builder (limit 600, minimum 1,
last-block time 0) at an elapsed time exactly equal to the limit the trigger
fires, although the elapsed time does not strictly exceed the limit and no
transaction is pending — the trigger tests meets-or-exceeds, not exceeds. -/
theorem trigger_boundary :
    shouldCreateBlock emptyChainBuilder 600 = true ∧
    ¬(emptyChainBuilder.block_time_limit < 600 - emptyChainBuilder.last_block_time) ∧
    emptyChainBuilder.transaction_pool.pending_count < emptyChainBuilder.min_transactions :=
  ⟨by decide, by decide, by decide⟩

/-- Claim C8 (amended): `should_create_block` returns true exactly when the
elapsed wall-clock time since the last produced block meets or exceeds the
configured limit, or the pending count meets or exceeds the configured
minimum — an inclusive OR; in particular a freshly constructed builder
(minimum 1, last-block time 0) triggers at any clock reading of at least
600 seconds, before any transaction is added. -/
theorem trigger_iff (b : BlockBuilder) (now : Nat) :
    (shouldCreateBlock b now = true ↔
      (b.block_time_limit ≤ now - b.last_block_time ∨
       b.min_transactions ≤ b.transaction_pool.pending_count)) ∧
    (∀ c : Chain, 600 ≤ now → shouldCreateBlock (BlockBuilder.new c) now = true) := by
  constructor
  · simp [shouldCreateBlock]
  · intro c hnow
    simp only [shouldCreateBlock, BlockBuilder.new, Bool.or_eq_true, decide_eq_true_eq]
    left
    omega

/-- Witness for C8 at a concrete input: the fresh builder over an empty
chain triggers at clock reading 1000. -/
theorem trigger_iff_witness :
    (shouldCreateBlock emptyChainBuilder 1000 = true ↔
      (emptyChainBuilder.block_time_limit ≤ 1000 - emptyChainBuilder.last_block_time ∨
       emptyChainBuilder.min_transactions ≤
         emptyChainBuilder.transaction_pool.pending_count)) ∧
    shouldCreateBlock (BlockBuilder.new (deserializeChain ⟨4, Hash.genesis, 0⟩)) 1000 = true :=
  ⟨(trigger_iff emptyChainBuilder 1000).1,
   (trigger_iff emptyChainBuilder 1000).2 (deserializeChain ⟨4, Hash.genesis, 0⟩) (by decide)⟩
